import Mathlib

set_option maxHeartbeats 2000000

/-!
Verification development for the reference-corpus indexing engine of the
snowflake-writer repository (`src/style_rag.py`, class `StyleRAG`).

The Python code is shallowly embedded as executable Lean definitions:
text is `List Char`, the ChromaDB collection is a list of entries keyed by
chunk id, the catalog (`metadata["references"]`) is an association list,
and the MD5-derived reference identifier is an explicit function parameter
`refIdOf`, since `hashlib` is an external capability.  Python float
comparisons against the constants `1.2`, `0.5` and `0.1` are embedded as
the exact rational comparisons (`5*(a+b) > 6*c`, `2*a ≥ c`, `10*m > n`).
-/

/-! ## Whitespace, stripping, and basic text helpers -/

/-- Whitespace as recognised by Python's `str.strip` and the regex class
`\s` on the character repertoire this program handles. -/
def isPySpace (c : Char) : Bool :=
  c == ' ' || c == '\t' || c == '\n' || c == '\r' || c == '\x0b' || c == '\x0c' ||
  c == ' ' || c == '　'

/-- Python `str.strip()`. -/
def stripChars (l : List Char) : List Char :=
  ((l.dropWhile isPySpace).reverse.dropWhile isPySpace).reverse

/-- The non-whitespace content of a text, used to state "equal modulo
whitespace normalization". -/
def nonWsChars (l : List Char) : List Char :=
  l.filter (fun c => !(isPySpace c))

/-- Python `text.replace('\r\n', '\n').replace('\r', '\n')`. -/
def normalizeNewlines : List Char → List Char
  | [] => []
  | '\r' :: '\n' :: rest => '\n' :: normalizeNewlines rest
  | '\r' :: rest => '\n' :: normalizeNewlines rest
  | c :: rest => c :: normalizeNewlines rest

/-- Python `str.count` of a single character. -/
def countChar (l : List Char) (c : Char) : Nat :=
  (l.filter (fun d => d == c)).length

def concatL (ls : List (List Char)) : List Char :=
  ls.foldr (· ++ ·) []

/-! ## Paragraph splitting: `re.split(r'\n\s*\n', text)` -/

/-- Index of the last newline in a list, if any. -/
def lastNlIdx : List Char → Option Nat
  | [] => none
  | c :: rest =>
    match lastNlIdx rest with
    | some j => some (j + 1)
    | none => if c == '\n' then some 0 else none

/-- Length of the match of `\n\s*\n` at the start of `l`, if any:
a newline, then greedily as much whitespace as possible, backtracking so
that the last consumed character is again a newline. -/
def matchBlankSep (l : List Char) : Option Nat :=
  match l with
  | '\n' :: rest =>
    match lastNlIdx (rest.takeWhile isPySpace) with
    | some j => some (j + 2)
    | none => none
  | _ => none

/-- `re.split(r'\n\s*\n', ·)`, with explicit fuel (one unit per scanned
character suffices); the separator has no capture group, so it is dropped. -/
def splitBlankGo : Nat → List Char → List Char → List (List Char)
  | _, [], acc => [acc.reverse]
  | 0, l, acc => [acc.reverse ++ l]
  | fuel + 1, c :: rest, acc =>
    match matchBlankSep (c :: rest) with
    | some n => acc.reverse :: splitBlankGo fuel ((c :: rest).drop n) []
    | none => splitBlankGo fuel rest (c :: acc)

def splitBlank (l : List Char) : List (List Char) :=
  splitBlankGo l.length l []

/-- Python `str.split('\n')`. -/
def splitNL : List Char → List (List Char)
  | [] => [[]]
  | '\n' :: rest => [] :: splitNL rest
  | c :: rest =>
    match splitNL rest with
    | [] => [[c]]
    | p :: ps => (c :: p) :: ps

/-! ## Sentence splitting: `re.split(r'([。！？!?…]+["」』]?|[.!?]+["\']?\s)', text)` -/

def isCjkEnd (c : Char) : Bool :=
  c == '。' || c == '！' || c == '？' || c == '!' || c == '?' || c == '…'

def isCjkClose (c : Char) : Bool :=
  c == '"' || c == '」' || c == '』'

def isLatinEnd (c : Char) : Bool :=
  c == '.' || c == '!' || c == '?'

def isLatinClose (c : Char) : Bool :=
  c == '"' || c == '\''

/-- Length of the match of the sentence-ending regex at the start of `l`,
if any.  The first alternative fires whenever the head is in
`[。！？!?…]`; the second needs a maximal `[.!?]+` run followed by an
optional quote and a mandatory whitespace character (shorter runs cannot
match, since the character after a shorter run is again in `[.!?]`, which
is neither a quote nor whitespace). -/
def matchSentSep (l : List Char) : Option Nat :=
  match l with
  | [] => none
  | c :: _ =>
    if isCjkEnd c then
      let run := l.takeWhile isCjkEnd
      match l.drop run.length with
      | d :: _ => if isCjkClose d then some (run.length + 1) else some run.length
      | [] => some run.length
    else if isLatinEnd c then
      let run := l.takeWhile isLatinEnd
      match l.drop run.length with
      | d :: e :: _ =>
        if isLatinClose d && isPySpace e then some (run.length + 2)
        else if isPySpace d then some (run.length + 1)
        else none
      | [d] => if isPySpace d then some (run.length + 1) else none
      | [] => none
    else none

/-- The sentence-ending regex split; the pattern is one capture group, so
separators are kept as standalone list elements (text and separator
elements alternate). -/
def splitSentGo : Nat → List Char → List Char → List (List Char)
  | _, [], acc => [acc.reverse]
  | 0, l, acc => [acc.reverse ++ l]
  | fuel + 1, c :: rest, acc =>
    match matchSentSep (c :: rest) with
    | some n => acc.reverse :: (c :: rest).take n :: splitSentGo fuel ((c :: rest).drop n) []
    | none => splitSentGo fuel rest (c :: acc)

def splitSentences (l : List Char) : List (List Char) :=
  splitSentGo l.length l []

/-- `re.match(sentence_endings, s)` used by the recombination loop. -/
def matchSepStart (l : List Char) : Bool :=
  (matchSentSep l).isSome

/-- The sentence recombination loop of `_split_long_paragraph`: glue each
text element to the separator that follows it; a trailing element that
strips to nothing is dropped. -/
def recombine : List (List Char) → List (List Char)
  | [] => []
  | [t] => if stripChars t ≠ [] then [t] else []
  | t :: s :: rest =>
    if matchSepStart s then (t ++ s) :: recombine rest
    else if stripChars t ≠ [] then t :: recombine (s :: rest)
    else recombine (s :: rest)

/-- The greedy sentence re-packing loop of `_split_long_paragraph`. -/
def packSents (chunk_size : Nat) : List (List Char) → List Char → List (List Char)
  | [], current => if current ≠ [] then [current] else []
  | sent :: rest, current =>
    let s := stripChars sent
    if s = [] then packSents chunk_size rest current
    else if current.length + s.length > chunk_size ∧ current ≠ [] then
      current :: packSents chunk_size rest s
    else packSents chunk_size rest (current ++ s)

/-- `StyleRAG._split_long_paragraph`. -/
def split_long_paragraph (text : List Char) (chunk_size : Nat) : List (List Char) :=
  let sentences := splitSentences text
  let result_sentences := recombine sentences
  let chunks := packSents chunk_size result_sentences []
  if chunks = [] then [text] else chunks

/-! ## The segmenter: `StyleRAG._chunk_text` -/

/-- One emitted chunk record: the stripped text and the running character
count the code tracked while building it. -/
structure Chunk where
  text : List Char
  char_count : Nat
deriving Repr, DecidableEq

/-- The inner loop over force-split sub-chunks (the `for sub in sub_chunks`
body).  State is (emitted chunks, current buffer, current length).  The
body first flushes a half-full buffer (`current_length >= chunk_size*0.5`,
embedded exactly as `2*len ≥ chunk_size`), then appends the sub-chunk to
the (possibly emptied) buffer, then flushes again if the buffer reached
`chunk_size`; the Python sequence of reassignments is compiled into the
corresponding explicit branches. -/
def addSubs (chunk_size : Nat) : List (List Char) → List Chunk → List Char → Nat →
    List Chunk × List Char × Nat
  | [], chunks, buf, len => (chunks, buf, len)
  | sub :: rest, chunks, buf, len =>
    if buf ≠ [] ∧ 2 * len ≥ chunk_size then
      if sub.length ≥ chunk_size then
        addSubs chunk_size rest
          (chunks ++ [⟨stripChars buf, len⟩] ++ [⟨stripChars sub, sub.length⟩]) [] 0
      else
        addSubs chunk_size rest (chunks ++ [⟨stripChars buf, len⟩]) sub sub.length
    else if buf ≠ [] then
      if len + sub.length ≥ chunk_size then
        addSubs chunk_size rest
          (chunks ++ [⟨stripChars (buf ++ '\n' :: sub), len + sub.length⟩]) [] 0
      else
        addSubs chunk_size rest chunks (buf ++ '\n' :: sub) (len + sub.length)
    else
      if sub.length ≥ chunk_size then
        addSubs chunk_size rest (chunks ++ [⟨stripChars sub, sub.length⟩]) [] 0
      else
        addSubs chunk_size rest chunks sub sub.length

/-- The main paragraph-accumulation loop of `_chunk_text` (`para` is the
stripped paragraph; skipped when blank, force-split when longer than
`chunk_size*2`, otherwise flushed past the `chunk_size*1.2` tolerance —
embedded exactly as `5*(len+para) > 6*chunk_size` — or appended). -/
def chunkLoop (chunk_size : Nat) : List (List Char) → List Chunk → List Char → Nat →
    List Chunk × List Char × Nat
  | [], chunks, buf, len => (chunks, buf, len)
  | p :: rest, chunks, buf, len =>
    if stripChars p = [] then chunkLoop chunk_size rest chunks buf len
    else if (stripChars p).length > chunk_size * 2 then
      match addSubs chunk_size (split_long_paragraph (stripChars p) chunk_size) chunks buf len with
      | (c1, b1, l1) => chunkLoop chunk_size rest c1 b1 l1
    else if len > 0 ∧ 5 * (len + (stripChars p).length) > 6 * chunk_size then
      if buf ≠ [] then
        chunkLoop chunk_size rest (chunks ++ [⟨stripChars buf, len⟩])
          (stripChars p) (stripChars p).length
      else
        chunkLoop chunk_size rest chunks (stripChars p) (stripChars p).length
    else if buf ≠ [] then
      chunkLoop chunk_size rest chunks (buf ++ '\n' :: stripChars p)
        (len + (stripChars p).length)
    else
      chunkLoop chunk_size rest chunks (stripChars p) (len + (stripChars p).length)

/-- `StyleRAG._chunk_text`. -/
def chunk_text (text : List Char) (chunk_size : Nat) : List Chunk :=
  let t := normalizeNewlines text
  let stripped := stripChars t
  let paras0 := splitBlank stripped
  let paragraphs :=
    if paras0.length < 5 || paras0.any (fun p => decide (p.length > chunk_size * 3)) then
      splitNL stripped
    else paras0
  match chunkLoop chunk_size paragraphs [] [] 0 with
  | (chunks, buf, len) =>
    if buf ≠ [] ∧ len > 50 then chunks ++ [⟨stripChars buf, len⟩] else chunks

/-! ## The classifier: `StyleRAG._classify_chunk_type` -/

/-- `StyleRAG._classify_chunk_type`.  All three `text.count` calls in the
source count the very same ASCII double-quote character, so the marker
total is three times that count.  The float test
`dialogue_markers / max(len(text), 1) > 0.1` is embedded as the exact
rational comparison. -/
def classify_chunk_type (text : List Char) : String :=
  let dialogue_markers := countChar text '"' + countChar text '"' + countChar text '"'
  let action_count :=
    countChar text '跑' + countChar text '走' + countChar text '打' + countChar text '踢' +
    countChar text '跳' + countChar text '冲' + countChar text '扑' + countChar text '抓' +
    countChar text '推'
  if 10 * dialogue_markers > max text.length 1 then "dialogue"
  else if action_count > 3 then "action"
  else if text.length > 300 then "description"
  else "mixed"

/-! ## Catalog, similarity index, and the index coordinator -/

/-- The per-chunk metadata written into the similarity index. -/
structure ChunkMeta where
  ref_id : String
  title : String
  author : String
  chunk_index : Nat
  chunk_type : String
  char_count : Nat
deriving Repr, DecidableEq

/-- One record of the ChromaDB collection: id, document text, metadata. -/
structure IndexEntry where
  id : String
  document : List Char
  meta : ChunkMeta
deriving Repr, DecidableEq

/-- One catalog entry of `metadata["references"]`.  The `author` field is
stored as given (Python keeps `None` here), unlike the per-chunk metadata. -/
structure RefInfo where
  title : String
  author : Option String
  chunk_count : Nat
  total_chars : Nat
deriving Repr, DecidableEq

/-- The persistent state of a `StyleRAG` instance: the sidecar catalog and
the similarity-index collection. -/
structure RagState where
  references : List (String × RefInfo)
  collection : List IndexEntry
deriving Repr, DecidableEq

def emptyState : RagState := ⟨[], []⟩

inductive RagError where
  | duplicate (title : String)
  | unsupportedFormat (ext : String)
  | extractionFailed (msg : String)
deriving Repr, DecidableEq

structure AddResult where
  ref_id : String
  title : String
  chunks_added : Nat
  total_chars : Nat
deriving Repr, DecidableEq

/-- Chunk ids: `f"{ref_id}_chunk_{i}"`. -/
def chunkId (rid : String) (i : Nat) : String :=
  rid ++ "_chunk_" ++ toString i

/-- Python `author or "Unknown"` (both `None` and the empty string fall
back to `"Unknown"`). -/
def authorOrUnknown : Option String → String
  | none => "Unknown"
  | some a => if a = "" then "Unknown" else a

/-- The index records built for one add: chunk `i` gets id
`{ref_id}_chunk_{i}` and carries the classified type and char count. -/
def mkEntries (rid title : String) (author : Option String) (chunks : List Chunk) :
    List IndexEntry :=
  chunks.enum.map (fun p =>
    { id := chunkId rid p.1
      document := p.2.text
      meta :=
        { ref_id := rid
          title := title
          author := authorOrUnknown author
          chunk_index := p.1
          chunk_type := classify_chunk_type p.2.text
          char_count := p.2.char_count } })

/-- `StyleRAG.add_reference_novel`.  `refIdOf` stands for the external
`hashlib.md5(title.encode()).hexdigest()[:8]` derivation. -/
def add_reference_novel (refIdOf : String → String) (st : RagState) (title : String)
    (content : List Char) (author : Option String) (chunk_size : Nat) (max_chunks : Nat) :
    Except RagError (RagState × AddResult) :=
  let ref_id := refIdOf title
  if (st.references.lookup ref_id).isSome then
    .error (.duplicate title)
  else
    let chunks0 := chunk_text content chunk_size
    let chunks := if chunks0.length > max_chunks then chunks0.take max_chunks else chunks0
    let entries := mkEntries ref_id title author chunks
    let info : RefInfo :=
      { title := title
        author := author
        chunk_count := chunks.length
        total_chars := (chunks.map (fun c => c.char_count)).sum }
    let st' : RagState :=
      { references := st.references ++ [(ref_id, info)]
        collection := st.collection ++ entries }
    .ok (st', { ref_id := ref_id, title := title, chunks_added := chunks.length,
                total_chars := (chunks.map (fun c => c.char_count)).sum })

/-- `StyleRAG.remove_reference`: deletes the catalog entry and every index
record whose metadata carries this `ref_id`; returns whether it existed. -/
def remove_reference (st : RagState) (ref_id : String) : RagState × Bool :=
  if (st.references.lookup ref_id).isNone then (st, false)
  else
    ({ references := st.references.filter (fun p => p.1 != ref_id)
       collection := st.collection.filter (fun e => e.meta.ref_id != ref_id) }, true)

/-- `StyleRAG.list_references`. -/
def list_references (st : RagState) : List (String × RefInfo) :=
  st.references

/-- `StyleRAG.clear_all_references`. -/
def clear_all_references (_st : RagState) : RagState :=
  emptyState

/-! ## File import: `parse_file`, `add_reference_from_file`, `scan_folder` -/

instance {ε α : Type} [DecidableEq ε] [DecidableEq α] : DecidableEq (Except ε α) := fun x y =>
  match x, y with
  | .ok a, .ok b => if h : a = b then .isTrue (by rw [h]) else .isFalse (by simp [h])
  | .error a, .error b => if h : a = b then .isTrue (by rw [h]) else .isFalse (by simp [h])
  | .ok _, .error _ => .isFalse (by simp)
  | .error _, .ok _ => .isFalse (by simp)

/-- A candidate file: name stem, extension (with dot), and the outcome of
the external text-extraction capability. -/
structure FileRec where
  stem : String
  ext : String
  content : Except String (List Char)
deriving Repr, DecidableEq

def supportedExtensions : List String := [".txt", ".pdf", ".epub"]

def lowerStr (s : String) : String := String.mk (s.data.map Char.toLower)

def upperStr (s : String) : String := String.mk (s.data.map Char.toUpper)

/-- The candidate list `scan_folder` builds: for each supported extension,
the files globbed with the lowercase and then the uppercase pattern. -/
def globFiles (folder : List FileRec) : List FileRec :=
  (supportedExtensions.map (fun ext =>
    folder.filter (fun f => f.ext == ext) ++
    folder.filter (fun f => f.ext == upperStr ext))).flatten

/-- `StyleRAG.parse_file`: returns (content, default title, format). -/
def parse_file (f : FileRec) : Except RagError (List Char × String × String) :=
  let suffix := lowerStr f.ext
  if suffix ∈ supportedExtensions then
    match f.content with
    | .ok c => .ok (c, f.stem, suffix)
    | .error e => .error (.extractionFailed e)
  else .error (.unsupportedFormat f.ext)

/-- `StyleRAG.add_reference_from_file` (Python `title or parsed["title"]`
falls back on both `None` and the empty string). -/
def add_reference_from_file (refIdOf : String → String) (st : RagState) (f : FileRec)
    (title : Option String) (author : Option String) (chunk_size max_chunks : Nat) :
    Except RagError (RagState × AddResult) :=
  match parse_file f with
  | .error e => .error e
  | .ok (content, fileTitle, _fmt) =>
    let final_title :=
      match title with
      | none => fileTitle
      | some t => if t = "" then fileTitle else t
    add_reference_novel refIdOf st final_title content author chunk_size max_chunks

structure ScanResults where
  total_files : Nat
  success : List FileRec
  failed : List FileRec
  skipped : List FileRec
deriving Repr, DecidableEq

/-- The per-file loop of `scan_folder`: skip already-cataloged titles,
record per-file failures and keep going, or re-raise when `skip_errors`
is off. -/
def scanGo (refIdOf : String → String) (author : Option String)
    (chunk_size max_chunks : Nat) (skip_errors : Bool) :
    List FileRec → RagState → ScanResults → Except RagError (RagState × ScanResults)
  | [], st, r => .ok (st, r)
  | f :: rest, st, r =>
    if (st.references.lookup (refIdOf f.stem)).isSome then
      scanGo refIdOf author chunk_size max_chunks skip_errors rest st
        { r with skipped := r.skipped ++ [f] }
    else
      match add_reference_from_file refIdOf st f none author chunk_size max_chunks with
      | .ok (st', _res) =>
        scanGo refIdOf author chunk_size max_chunks skip_errors rest st'
          { r with success := r.success ++ [f] }
      | .error e =>
        if skip_errors then
          scanGo refIdOf author chunk_size max_chunks skip_errors rest st
            { r with failed := r.failed ++ [f] }
        else .error e

/-- `StyleRAG.scan_folder` over a modelled folder listing. -/
def scan_folder (refIdOf : String → String) (st : RagState) (folder : List FileRec)
    (author : Option String) (chunk_size max_chunks : Nat) (skip_errors : Bool) :
    Except RagError (RagState × ScanResults) :=
  let files := globFiles folder
  scanGo refIdOf author chunk_size max_chunks skip_errors files st
    { total_files := files.length, success := [], failed := [], skipped := [] }

/-! ## Whitespace and stripping lemmas -/

theorem nonWs_append (a b : List Char) :
    nonWsChars (a ++ b) = nonWsChars a ++ nonWsChars b := by
  simp [nonWsChars, List.filter_append]

theorem nonWs_dropWhile (l : List Char) :
    nonWsChars (l.dropWhile isPySpace) = nonWsChars l := by
  induction l with
  | nil => rfl
  | cons c rest ih =>
    by_cases h : isPySpace c
    · simpa [nonWsChars, List.dropWhile_cons, h] using ih
    · simp [nonWsChars, List.dropWhile_cons, h]

theorem nonWs_reverse (l : List Char) :
    nonWsChars l.reverse = (nonWsChars l).reverse := by
  simp [nonWsChars, List.filter_reverse]

theorem nonWs_strip (l : List Char) :
    nonWsChars (stripChars l) = nonWsChars l := by
  unfold stripChars
  rw [nonWs_reverse, nonWs_dropWhile, nonWs_reverse, nonWs_dropWhile, List.reverse_reverse]

theorem strip_eq_nil_iff (l : List Char) :
    stripChars l = [] ↔ nonWsChars l = [] := by
  constructor
  · intro h
    have := nonWs_strip l
    rw [h] at this
    exact this.symm
  · intro h
    have hall : ∀ c ∈ l, isPySpace c := by
      intro c hc
      by_contra hws
      have : c ∈ nonWsChars l := by
        simp [nonWsChars, List.mem_filter, hc, hws]
      rw [h] at this
      exact absurd this (List.not_mem_nil c)
    unfold stripChars
    have h1 : l.dropWhile isPySpace = [] := by
      rw [List.dropWhile_eq_nil_iff]
      exact hall
    simp [h1]

theorem strip_ne_nil_iff (l : List Char) :
    stripChars l ≠ [] ↔ nonWsChars l ≠ [] :=
  not_congr (strip_eq_nil_iff l)

theorem nonWs_of_strip_ne_nil {l : List Char} (h : stripChars l ≠ []) :
    nonWsChars (stripChars l) ≠ [] := by
  rw [nonWs_strip]
  exact (strip_ne_nil_iff l).mp h

/-! ## Non-emptiness of emitted chunks -/


/-! ## Non-emptiness of emitted chunks -/

theorem packSents_content (cs : Nat) (ls : List (List Char)) (cur : List Char) :
    (cur ≠ [] → nonWsChars cur ≠ []) → ∀ s ∈ packSents cs ls cur, nonWsChars s ≠ [] := by
  induction ls, cur using packSents.induct cs with
  | case1 cur h =>
    intro hcur s hs
    simp only [packSents, if_pos h] at hs
    rw [List.mem_singleton] at hs
    subst hs
    exact hcur h
  | case2 cur h =>
    intro _ s hs
    simp only [packSents, if_neg h] at hs
    exact absurd hs (List.not_mem_nil s)
  | case3 sent rest cur s0 h ih =>
    intro hcur s hs
    simp only [packSents, if_pos h] at hs
    exact ih hcur s hs
  | case4 sent rest cur s0 h1 h2 ih =>
    intro hcur s hs
    simp only [packSents, if_neg h1, if_pos h2] at hs
    rcases List.mem_cons.mp hs with rfl | hs
    · exact hcur h2.2
    · exact ih (fun _ => nonWs_of_strip_ne_nil h1) s hs
  | case5 sent rest cur s0 h1 h2 ih =>
    intro hcur s hs
    simp only [packSents, if_neg h1, if_neg h2] at hs
    refine ih ?_ s hs
    intro _
    rw [nonWs_append]
    intro hnil
    exact nonWs_of_strip_ne_nil h1 (List.append_eq_nil.mp hnil).2

theorem strip_text_ne {l : List Char} (h : nonWsChars l ≠ []) : stripChars l ≠ [] :=
  (strip_ne_nil_iff l).mpr h

theorem nonWs_newline_cons (l : List Char) : nonWsChars ('\n' :: l) = nonWsChars l := by
  simp [nonWsChars, isPySpace]

theorem append_right_ne_nil {α : Type} {a b : List α} (h : b ≠ []) : a ++ b ≠ [] :=
  fun hn => h (List.append_eq_nil.mp hn).2

theorem nonWs_buf_cons_ne {buf sub : List Char} (h : nonWsChars sub ≠ []) :
    nonWsChars (buf ++ '\n' :: sub) ≠ [] := by
  rw [nonWs_append, nonWs_newline_cons]
  exact append_right_ne_nil h

theorem mem_append_singleton {α : Type} {c x : α} {l : List α}
    (hc : c ∈ l ++ [x]) : c ∈ l ∨ c = x := by
  rcases List.mem_append.mp hc with h | h
  · exact Or.inl h
  · exact Or.inr (List.mem_singleton.mp h)

theorem split_long_paragraph_content (t : List Char) (cs : Nat)
    (ht : nonWsChars t ≠ []) :
    ∀ s ∈ split_long_paragraph t cs, nonWsChars s ≠ [] := by
  intro s hs
  unfold split_long_paragraph at hs
  by_cases hc : packSents cs (recombine (splitSentences t)) [] = []
  · rw [if_pos hc, List.mem_singleton] at hs
    subst hs
    exact ht
  · rw [if_neg hc] at hs
    exact packSents_content cs _ [] (fun h => absurd rfl h) s hs

theorem addSubs_content (cs : Nat) (subs : List (List Char)) (chunks : List Chunk)
    (buf : List Char) (len : Nat) :
    (∀ s ∈ subs, nonWsChars s ≠ []) → (∀ c ∈ chunks, c.text ≠ []) →
    (buf ≠ [] → nonWsChars buf ≠ []) →
    (∀ c ∈ (addSubs cs subs chunks buf len).1, c.text ≠ []) ∧
    ((addSubs cs subs chunks buf len).2.1 ≠ [] →
      nonWsChars (addSubs cs subs chunks buf len).2.1 ≠ []) := by
  induction subs, chunks, buf, len using addSubs.induct cs with
  | case1 chunks buf len =>
    intro _ hchunks hbuf
    exact ⟨hchunks, hbuf⟩
  | case2 sub rest chunks buf len hf hsub ih =>
    intro hsubs hchunks hbuf
    have hsubC : nonWsChars sub ≠ [] := hsubs sub (List.mem_cons_self _ _)
    simp only [addSubs, if_pos hf, if_pos hsub]
    refine ih (fun s hs => hsubs s (List.mem_cons_of_mem _ hs)) ?_ (fun h => absurd rfl h)
    intro c hc
    rcases mem_append_singleton hc with hc | rfl
    · rcases mem_append_singleton hc with hc | rfl
      · exact hchunks c hc
      · exact strip_text_ne (hbuf hf.1)
    · exact strip_text_ne hsubC
  | case3 sub rest chunks buf len hf hsub ih =>
    intro hsubs hchunks hbuf
    have hsubC : nonWsChars sub ≠ [] := hsubs sub (List.mem_cons_self _ _)
    simp only [addSubs, if_pos hf, if_neg hsub]
    refine ih (fun s hs => hsubs s (List.mem_cons_of_mem _ hs)) ?_ (fun _ => hsubC)
    intro c hc
    rcases mem_append_singleton hc with hc | rfl
    · exact hchunks c hc
    · exact strip_text_ne (hbuf hf.1)
  | case4 sub rest chunks buf len hf hb hlen ih =>
    intro hsubs hchunks hbuf
    have hsubC : nonWsChars sub ≠ [] := hsubs sub (List.mem_cons_self _ _)
    simp only [addSubs, if_neg hf, if_pos hb, if_pos hlen]
    refine ih (fun s hs => hsubs s (List.mem_cons_of_mem _ hs)) ?_ (fun h => absurd rfl h)
    intro c hc
    rcases mem_append_singleton hc with hc | rfl
    · exact hchunks c hc
    · exact strip_text_ne (nonWs_buf_cons_ne hsubC)
  | case5 sub rest chunks buf len hf hb hlen ih =>
    intro hsubs hchunks hbuf
    have hsubC : nonWsChars sub ≠ [] := hsubs sub (List.mem_cons_self _ _)
    simp only [addSubs, if_neg hf, if_pos hb, if_neg hlen]
    exact ih (fun s hs => hsubs s (List.mem_cons_of_mem _ hs)) hchunks
      (fun _ => nonWs_buf_cons_ne hsubC)
  | case6 sub rest chunks buf len hf hb hsub ih =>
    intro hsubs hchunks hbuf
    have hsubC : nonWsChars sub ≠ [] := hsubs sub (List.mem_cons_self _ _)
    simp only [addSubs, if_neg hf, if_neg hb, if_pos hsub]
    refine ih (fun s hs => hsubs s (List.mem_cons_of_mem _ hs)) ?_ (fun h => absurd rfl h)
    intro c hc
    rcases mem_append_singleton hc with hc | rfl
    · exact hchunks c hc
    · exact strip_text_ne hsubC
  | case7 sub rest chunks buf len hf hb hsub ih =>
    intro hsubs hchunks hbuf
    have hsubC : nonWsChars sub ≠ [] := hsubs sub (List.mem_cons_self _ _)
    simp only [addSubs, if_neg hf, if_neg hb, if_neg hsub]
    exact ih (fun s hs => hsubs s (List.mem_cons_of_mem _ hs)) hchunks (fun _ => hsubC)

theorem chunkLoop_content (cs : Nat) (ps : List (List Char)) (chunks : List Chunk)
    (buf : List Char) (len : Nat) :
    (∀ c ∈ chunks, c.text ≠ []) → (buf ≠ [] → nonWsChars buf ≠ []) →
    (∀ c ∈ (chunkLoop cs ps chunks buf len).1, c.text ≠ []) ∧
    ((chunkLoop cs ps chunks buf len).2.1 ≠ [] →
      nonWsChars (chunkLoop cs ps chunks buf len).2.1 ≠ []) := by
  induction ps, chunks, buf, len using chunkLoop.induct cs with
  | case1 chunks buf len =>
    intro hchunks hbuf
    exact ⟨hchunks, hbuf⟩
  | case2 p rest chunks buf len hp ih =>
    intro hchunks hbuf
    simp only [chunkLoop, if_pos hp]
    exact ih hchunks hbuf
  | case3 p rest chunks buf len hp hlong c1 b1 l1 heq ih =>
    intro hchunks hbuf
    have hpara : nonWsChars (stripChars p) ≠ [] := nonWs_of_strip_ne_nil hp
    have hmid := addSubs_content cs (split_long_paragraph (stripChars p) cs) chunks buf len
      (split_long_paragraph_content _ cs hpara) hchunks hbuf
    rw [heq] at hmid
    simp only [chunkLoop, if_neg hp, if_pos hlong, heq]
    exact ih hmid.1 hmid.2
  | case4 p rest chunks buf len hp hlong hflush hb ih =>
    intro hchunks hbuf
    have hpara : nonWsChars (stripChars p) ≠ [] := nonWs_of_strip_ne_nil hp
    simp only [chunkLoop, if_neg hp, if_neg hlong, if_pos hflush, if_pos hb]
    refine ih ?_ (fun _ => hpara)
    intro c hc
    rcases mem_append_singleton hc with hc | rfl
    · exact hchunks c hc
    · exact strip_text_ne (hbuf hb)
  | case5 p rest chunks buf len hp hlong hflush hb ih =>
    intro hchunks hbuf
    have hpara : nonWsChars (stripChars p) ≠ [] := nonWs_of_strip_ne_nil hp
    simp only [chunkLoop, if_neg hp, if_neg hlong, if_pos hflush, if_neg hb]
    exact ih hchunks (fun _ => hpara)
  | case6 p rest chunks buf len hp hlong hflush hb ih =>
    intro hchunks hbuf
    have hpara : nonWsChars (stripChars p) ≠ [] := nonWs_of_strip_ne_nil hp
    simp only [chunkLoop, if_neg hp, if_neg hlong, if_neg hflush, if_pos hb]
    exact ih hchunks (fun _ => nonWs_buf_cons_ne hpara)
  | case7 p rest chunks buf len hp hlong hflush hb ih =>
    intro hchunks hbuf
    have hpara : nonWsChars (stripChars p) ≠ [] := nonWs_of_strip_ne_nil hp
    simp only [chunkLoop, if_neg hp, if_neg hlong, if_neg hflush, if_neg hb]
    exact ih hchunks (fun _ => hpara)


theorem chunk_text_content_aux (cs : Nat) (ps : List (List Char)) :
    ∀ c ∈ (match chunkLoop cs ps [] [] 0 with
           | (chunks, buf, len) =>
             if buf ≠ [] ∧ len > 50 then chunks ++ [⟨stripChars buf, len⟩] else chunks :
           List Chunk),
      c.text ≠ [] := by
  have h := chunkLoop_content cs ps [] [] 0
    (fun c hc => absurd hc (List.not_mem_nil c)) (fun hne => absurd rfl hne)
  rcases hres : chunkLoop cs ps [] [] 0 with ⟨chunks, buf, len⟩
  rw [hres] at h
  intro c hc
  dsimp only at hc h
  by_cases hfin : buf ≠ [] ∧ len > 50
  · rw [if_pos hfin] at hc
    rcases mem_append_singleton hc with hc | rfl
    · exact h.1 c hc
    · exact strip_text_ne (h.2 hfin.1)
  · rw [if_neg hfin] at hc
    exact h.1 c hc

/-- Claim C1 (amended): for every input text and every target chunk size, no
chunk emitted by the segmenter `_chunk_text` has empty text.  The claimed
char-count bound `target_size × 1.5` does not hold in general (see the
counterexample), so only the non-emptiness half survives. -/
theorem claim_C1_amended (text : List Char) (chunk_size : Nat) :
    ∀ c ∈ chunk_text text chunk_size, c.text ≠ [] := by
  intro c hc
  unfold chunk_text at hc
  exact chunk_text_content_aux chunk_size _ c hc

/-- Claim C1 counterexample: on input `"aaaaaaaa\nbb"` with target size 4
(a first paragraph of exactly twice the target size, which the normal
accumulation path admits whole into an empty buffer), the segmenter emits
a chunk with recorded char count 8 > 6 = `target_size × 1.5`, refuting the
claimed bound. -/
theorem claim_C1_counterexample :
    ¬ (∀ c ∈ chunk_text ("aaaaaaaa\nbb".toList) 4, 2 * c.char_count ≤ 3 * 4) := by
  decide

/-- Concrete instance of `claim_C1_amended`. -/
theorem claim_C1_witness :
    (⟨"aaaaaaaa".toList, 8⟩ : Chunk) ∈ chunk_text ("aaaaaaaa\nbb".toList) 4 ∧
    (⟨"aaaaaaaa".toList, 8⟩ : Chunk).text ≠ [] :=
  ⟨by decide, claim_C1_amended ("aaaaaaaa\nbb".toList) 4 _ (by decide)⟩

/-- Claim C4: the classifier maps the exact scenario string to `dialogue`
(the quotation-mark rule, first in the tie-break order, fires: the string
holds 4 double quotes among 41 characters and the source counts the ASCII
double quote three times, so the marker ratio 12/41 exceeds 0.1). -/
theorem claim_C4 :
    classify_chunk_type ("\"Hello,\" she said. \"Go away,\" he replied.".toList) = "dialogue" ∧
    10 * (countChar ("\"Hello,\" she said. \"Go away,\" he replied.".toList) '"' +
          countChar ("\"Hello,\" she said. \"Go away,\" he replied.".toList) '"' +
          countChar ("\"Hello,\" she said. \"Go away,\" he replied.".toList) '"') >
      max ("\"Hello,\" she said. \"Go away,\" he replied.".toList).length 1 := by
  constructor <;> decide

/-! ## Losslessness of the sentence-boundary force-split (claim C5) -/

theorem concatL_nil : concatL [] = [] := rfl

theorem concatL_cons (a : List Char) (ls : List (List Char)) :
    concatL (a :: ls) = a ++ concatL ls := rfl

theorem splitSentGo_concat (fuel : Nat) (l acc : List Char) :
    concatL (splitSentGo fuel l acc) = acc.reverse ++ l := by
  induction fuel, l, acc using splitSentGo.induct with
  | case1 fuel acc =>
    simp [splitSentGo, concatL]
  | case2 l acc h =>
    simp [splitSentGo, concatL]
  | case3 fuel c rest acc j hm ih =>
    simp only [splitSentGo, hm, concatL_cons, ih, List.reverse_nil, List.nil_append,
      List.take_append_drop]
  | case4 fuel c rest acc hm ih =>
    simp only [splitSentGo, hm, ih]
    simp

theorem nonWs_eq_nil_of_strip {t : List Char} (h : ¬ stripChars t ≠ []) :
    nonWsChars t = [] := by
  rw [← strip_eq_nil_iff]
  exact not_not.mp h

theorem recombine_nonWs (ls : List (List Char)) :
    nonWsChars (concatL (recombine ls)) = nonWsChars (concatL ls) := by
  induction ls using recombine.induct with
  | case1 => rfl
  | case2 t h =>
    simp [recombine, if_pos h]
  | case3 t h =>
    simp only [recombine, if_neg h, concatL_nil, concatL_cons]
    rw [nonWsChars, List.filter_nil, nonWs_append, nonWs_eq_nil_of_strip h]
    rfl
  | case4 t s rest h ih =>
    simp only [recombine, if_pos h, concatL_cons, nonWs_append, ih, List.append_assoc]
  | case5 t s rest h1 h2 ih =>
    simp only [recombine, if_neg h1, if_pos h2, concatL_cons, nonWs_append, ih,
      List.append_assoc]
  | case6 t s rest h1 h2 ih =>
    simp only [recombine, if_neg h1, if_neg h2, ih, concatL_cons, nonWs_append,
      nonWs_eq_nil_of_strip h2, List.nil_append]

theorem packSents_nonWs (cs : Nat) (ls : List (List Char)) (cur : List Char) :
    nonWsChars (concatL (packSents cs ls cur)) = nonWsChars cur ++ nonWsChars (concatL ls) := by
  induction ls, cur using packSents.induct cs with
  | case1 cur h =>
    simp [packSents, if_pos h, concatL, nonWsChars]
  | case2 cur h =>
    have : cur = [] := not_not.mp h
    subst this
    simp [packSents, concatL, nonWsChars]
  | case3 sent rest cur s0 h ih =>
    simp only [packSents, if_pos h, ih, concatL_cons, nonWs_append]
    rw [show nonWsChars sent = [] from nonWs_eq_nil_of_strip (not_not_intro h),
      List.nil_append]
  | case4 sent rest cur s0 h1 h2 ih =>
    simp only [packSents, if_neg h1, if_pos h2, concatL_cons, nonWs_append, ih]
    rw [show nonWsChars (stripChars sent) = nonWsChars sent from nonWs_strip sent]
  | case5 sent rest cur s0 h1 h2 ih =>
    simp only [packSents, if_neg h1, if_neg h2, concatL_cons, nonWs_append, ih,
      List.append_assoc]
    rw [show nonWsChars (stripChars sent) = nonWsChars sent from nonWs_strip sent]

/-- A sentence-terminating character: anything either alternative of the
sentence-ending regex can start with. -/
def isTermChar (c : Char) : Bool :=
  isCjkEnd c || isLatinEnd c

theorem matchSentSep_eq_none {c : Char} (rest : List Char) (h : isTermChar c = false) :
    matchSentSep (c :: rest) = none := by
  rw [isTermChar, Bool.or_eq_false_iff] at h
  simp [matchSentSep, h.1, h.2]

theorem splitSentGo_noTerm (fuel : Nat) : ∀ (l acc : List Char),
    (∀ c ∈ l, isTermChar c = false) → l.length ≤ fuel →
    splitSentGo fuel l acc = [acc.reverse ++ l] := by
  induction fuel with
  | zero =>
    intro l acc h hlen
    cases l with
    | nil => simp [splitSentGo]
    | cons c r => simp at hlen
  | succ fuel ih =>
    intro l acc h hlen
    cases l with
    | nil => simp [splitSentGo]
    | cons c r =>
      have hlen2 : r.length ≤ fuel := by
        simp only [List.length_cons] at hlen
        omega
      rw [splitSentGo, matchSentSep_eq_none r (h c (List.mem_cons_self c r))]
      dsimp only
      rw [ih r (c :: acc) (fun d hd => h d (List.mem_cons_of_mem c hd)) hlen2]
      simp

theorem splitSentences_concat (l : List Char) : concatL (splitSentences l) = l := by
  unfold splitSentences
  rw [splitSentGo_concat]
  simp

theorem splitSentences_noTerm (l : List Char) (h : ∀ c ∈ l, isTermChar c = false) :
    splitSentences l = [l] := by
  unfold splitSentences
  rw [splitSentGo_noTerm l.length l [] h le_rfl]
  simp

/-- Claim C5: force-splitting is lossless.  First half: the concatenation
of all sub-chunks returned by `_split_long_paragraph` has exactly the
non-whitespace characters of the input, in order (the code only strips
edge whitespace of sentences and drops whitespace-only fragments, i.e.
the text is reproduced modulo whitespace normalization).  Second half: a
paragraph with no sentence-terminating punctuation (already stripped and
non-blank, as every paragraph reaching the force-split is) comes back as
the single sub-chunk `[text]`, unmodified. -/
theorem claim_C5 (text : List Char) (chunk_size : Nat) :
    nonWsChars (concatL (split_long_paragraph text chunk_size)) = nonWsChars text ∧
    ((∀ c ∈ text, isTermChar c = false) → stripChars text = text → text ≠ [] →
      split_long_paragraph text chunk_size = [text]) := by
  constructor
  · unfold split_long_paragraph
    by_cases hc : packSents chunk_size (recombine (splitSentences text)) [] = []
    · rw [if_pos hc]
      simp [concatL]
    · rw [if_neg hc, packSents_nonWs, recombine_nonWs, splitSentences_concat]
      simp [nonWsChars]
  · intro hterm htrim hne
    have h1 : stripChars text ≠ [] := by rw [htrim]; exact hne
    simp only [split_long_paragraph, splitSentences_noTerm text hterm]
    rw [show recombine [text] = [text] from by simp [recombine, if_pos h1]]
    have h2 : packSents chunk_size [text] [] = [text] := by
      simp only [packSents, if_neg h1, htrim]
      simp [packSents, hne]
    rw [h2, if_neg (by simp)]

/-- Concrete instance of `claim_C5`. -/
theorem claim_C5_witness :
    nonWsChars (concatL (split_long_paragraph ("no terminators in this text".toList) 5)) =
      nonWsChars ("no terminators in this text".toList) ∧
    split_long_paragraph ("no terminators in this text".toList) 5 =
      ["no terminators in this text".toList] :=
  ⟨(claim_C5 _ 5).1, (claim_C5 _ 5).2 (by decide) (by decide) (by decide)⟩

/-! ## Association-list lemmas for the catalog -/

theorem lookup_append_of_none {α β : Type} [BEq α] (l : List (α × β)) (k : α) (v : β)
    [LawfulBEq α] (h : l.lookup k = none) : (l ++ [(k, v)]).lookup k = some v := by
  induction l with
  | nil => simp [List.lookup]
  | cons a t ih =>
    rcases a with ⟨a1, a2⟩
    cases hk : k == a1 with
    | true => simp [List.lookup, hk] at h
    | false =>
      simp only [List.lookup, hk] at h
      simpa [List.lookup, hk] using ih h

theorem lookup_append_of_ne {α β : Type} [BEq α] [LawfulBEq α] {k k' : α}
    (hne : k' ≠ k) (l : List (α × β)) (v : β) :
    (l ++ [(k, v)]).lookup k' = l.lookup k' := by
  have hb : (k' == k) = false := beq_eq_false_iff_ne.mpr hne
  induction l with
  | nil => simp [List.lookup, hb]
  | cons a t ih =>
    rcases a with ⟨a1, a2⟩
    cases hk : k' == a1 with
    | true => simp [List.lookup, hk]
    | false => simpa [List.lookup, hk] using ih

theorem lookup_filter_ne_self {α β : Type} [BEq α] [LawfulBEq α] [DecidableEq α]
    (l : List (α × β)) (k : α) :
    (l.filter (fun p => p.1 != k)).lookup k = none := by
  induction l with
  | nil => rfl
  | cons a t ih =>
    rcases a with ⟨a1, a2⟩
    by_cases h : a1 = k
    · subst h
      simpa [List.filter] using ih
    · have hb : (a1 != k) = true := by simpa using h
      have hk : (k == a1) = false := by simpa using Ne.symm h
      simpa [List.filter, hb, List.lookup, hk] using ih

theorem lookup_filter_ne {α β : Type} [BEq α] [LawfulBEq α] [DecidableEq α]
    {k' k : α} (hne : k' ≠ k) (l : List (α × β)) :
    (l.filter (fun p => p.1 != k)).lookup k' = l.lookup k' := by
  induction l with
  | nil => rfl
  | cons a t ih =>
    rcases a with ⟨a1, a2⟩
    by_cases h : a1 = k
    · subst h
      have hk : (k' == a1) = false := by simpa using hne
      simpa [List.filter, List.lookup, hk] using ih
    · have hb : (a1 != k) = true := by simpa using h
      cases hk : k' == a1 with
      | true => simp [List.filter, hb, List.lookup, hk]
      | false => simpa [List.filter, hb, List.lookup, hk] using ih

/-! ## Claim C2: duplicate adds are rejected before any write -/

/-- Claim C2: when the title's derived identifier is already cataloged,
`add_reference_novel` raises the duplicate-reference error; the error is
raised before segmentation, before the index upsert and before the catalog
write, so the call leaves the catalog entry and the stored chunks of the
first reference untouched (the state is not changed). -/
theorem claim_C2 (refIdOf : String → String) (st : RagState) (title : String)
    (content : List Char) (author : Option String) (chunk_size max_chunks : Nat)
    (h : (st.references.lookup (refIdOf title)).isSome) :
    add_reference_novel refIdOf st title content author chunk_size max_chunks =
      .error (.duplicate title) := by
  unfold add_reference_novel
  rw [if_pos h]

/-- Concrete instance of `claim_C2`. -/
theorem claim_C2_witness :
    ((([("r", (⟨"t", none, 0, 0⟩ : RefInfo))] : List (String × RefInfo)).lookup "r").isSome) ∧
    add_reference_novel (fun _ => "r") ⟨[("r", ⟨"t", none, 0, 0⟩)], []⟩ "t" [] none 500 200 =
      .error (.duplicate "t") :=
  ⟨by decide,
   claim_C2 (fun _ => "r") ⟨[("r", ⟨"t", none, 0, 0⟩)], []⟩ "t" [] none 500 200 (by decide)⟩

/-! ## Claim C6: remove on an absent id returns False, on a present id True -/

/-- Claim C6: `remove_reference` on an identifier not in the catalog returns
`false` (the unchanged state, no exception); on a cataloged identifier it
returns `true`.  The boolean reports whether the reference existed. -/
theorem claim_C6 (st : RagState) (ref_id : String) :
    (st.references.lookup ref_id = none → remove_reference st ref_id = (st, false)) ∧
    (∀ info, st.references.lookup ref_id = some info →
      (remove_reference st ref_id).2 = true) := by
  constructor
  · intro h
    unfold remove_reference
    rw [if_pos (by rw [h]; rfl)]
  · intro info h
    unfold remove_reference
    rw [if_neg (by simp [h])]

/-- Concrete instance of `claim_C6`. -/
theorem claim_C6_witness :
    remove_reference emptyState "zz" = (emptyState, false) ∧
    (remove_reference ⟨[("r", ⟨"t", none, 0, 0⟩)], []⟩ "r").2 = true :=
  ⟨(claim_C6 emptyState "zz").1 rfl,
   (claim_C6 ⟨[("r", ⟨"t", none, 0, 0⟩)], []⟩ "r").2 ⟨"t", none, 0, 0⟩ rfl⟩

/-! ## Claim C10: silent truncation to `max_chunks` -/

/-- Claim C10: when segmentation yields more than `max_chunks` chunks, the
add succeeds (no error), stores exactly the first `max_chunks` chunks in
segmentation order in the index, and the catalog entry and returned
statistics report only the stored chunks (`chunk_count = max_chunks`,
`total_chars` summed over the stored prefix); the discarded tail is
reported nowhere. -/
theorem claim_C10 (refIdOf : String → String) (st : RagState) (title : String)
    (content : List Char) (author : Option String) (chunk_size max_chunks : Nat)
    (hfresh : st.references.lookup (refIdOf title) = none)
    (hover : (chunk_text content chunk_size).length > max_chunks) :
    add_reference_novel refIdOf st title content author chunk_size max_chunks =
      .ok ({ references := st.references ++
               [(refIdOf title,
                 { title := title, author := author, chunk_count := max_chunks,
                   total_chars := (((chunk_text content chunk_size).take max_chunks).map
                     (fun c => c.char_count)).sum })],
             collection := st.collection ++
               mkEntries (refIdOf title) title author
                 ((chunk_text content chunk_size).take max_chunks) },
            { ref_id := refIdOf title, title := title, chunks_added := max_chunks,
              total_chars := (((chunk_text content chunk_size).take max_chunks).map
                (fun c => c.char_count)).sum }) := by
  simp only [add_reference_novel]
  rw [if_neg (by simp [hfresh])]
  rw [if_pos hover]
  have hlen : ((chunk_text content chunk_size).take max_chunks).length = max_chunks := by
    rw [List.length_take]
    exact min_eq_left (le_of_lt hover)
  rw [hlen]

/-- Concrete instance of `claim_C10`. -/
theorem claim_C10_witness :
    add_reference_novel (fun t => t) emptyState "T" (List.replicate 60 'a') none 500 0 =
      .ok ({ references := emptyState.references ++
               [("T",
                 { title := "T", author := none, chunk_count := 0,
                   total_chars := (((chunk_text (List.replicate 60 'a') 500).take 0).map
                     (fun c => c.char_count)).sum })],
             collection := emptyState.collection ++
               mkEntries "T" "T" none ((chunk_text (List.replicate 60 'a') 500).take 0) },
            { ref_id := "T", title := "T", chunks_added := 0,
              total_chars := (((chunk_text (List.replicate 60 'a') 500).take 0).map
                (fun c => c.char_count)).sum }) :=
  claim_C10 (fun t => t) emptyState "T" (List.replicate 60 'a') none 500 0 rfl (by decide)

/-! ## Facts about the index records built by one add -/

theorem mkEntries_ref_id (rid t : String) (a : Option String) (chunks : List Chunk) :
    ∀ e ∈ mkEntries rid t a chunks, e.meta.ref_id = rid := by
  intro e he
  rcases List.mem_map.mp he with ⟨p, _, rfl⟩
  rfl

theorem mkEntries_author (rid t : String) (a : Option String) (chunks : List Chunk) :
    ∀ e ∈ mkEntries rid t a chunks, e.meta.author = authorOrUnknown a := by
  intro e he
  rcases List.mem_map.mp he with ⟨p, _, rfl⟩
  rfl

theorem enumFrom_map_snd {α β : Type} (h : α → β) (n : Nat) (l : List α) :
    (List.enumFrom n l).map (fun p => h p.2) = l.map h := by
  induction l generalizing n with
  | nil => rfl
  | cons a t ih => simp [List.enumFrom, ih]

theorem mkEntries_length (rid t : String) (a : Option String) (chunks : List Chunk) :
    (mkEntries rid t a chunks).length = chunks.length := by
  simp [mkEntries, List.enum]

theorem mkEntries_char_counts (rid t : String) (a : Option String) (chunks : List Chunk) :
    (mkEntries rid t a chunks).map (fun e => e.meta.char_count) =
      chunks.map (fun c => c.char_count) := by
  unfold mkEntries List.enum
  rw [List.map_map]
  exact enumFrom_map_snd (fun c => c.char_count) 0 chunks

theorem mkEntries_filter_self (rid t : String) (a : Option String) (chunks : List Chunk) :
    (mkEntries rid t a chunks).filter (fun e => e.meta.ref_id != rid) = [] := by
  rw [List.filter_eq_nil_iff]
  intro e he
  have := mkEntries_ref_id rid t a chunks e he
  simp [this]

theorem mkEntries_filter_eq_self (rid t : String) (a : Option String) (chunks : List Chunk) :
    (mkEntries rid t a chunks).filter (fun e => e.meta.ref_id == rid) =
      mkEntries rid t a chunks := by
  rw [List.filter_eq_self]
  intro e he
  have := mkEntries_ref_id rid t a chunks e he
  simp [this]

theorem mkEntries_filter_other (rid t : String) (a : Option String) (chunks : List Chunk)
    {rid' : String} (hne : rid' ≠ rid) :
    (mkEntries rid t a chunks).filter (fun e => e.meta.ref_id == rid') = [] := by
  rw [List.filter_eq_nil_iff]
  intro e he
  have := mkEntries_ref_id rid t a chunks e he
  simp [this, Ne.symm hne]

/-! ## Claim C9: the "Unknown" default only reaches the chunk metadata -/

/-- Claim C9 (amended): for an add with no author (`author = None`), the
per-chunk metadata written to the similarity index does default the author
to `"Unknown"`, but the catalog entry (as returned by `list_references`)
stores the author as `None`, not `"Unknown"` — the source writes the raw
`author` value into `metadata["references"]`. -/
theorem claim_C9_amended (refIdOf : String → String) (st : RagState) (title : String)
    (content : List Char) (chunk_size max_chunks : Nat)
    (hfresh : st.references.lookup (refIdOf title) = none) :
    ∃ st' res,
      add_reference_novel refIdOf st title content none chunk_size max_chunks =
        .ok (st', res) ∧
      (∀ e ∈ st'.collection.drop st.collection.length, e.meta.author = "Unknown") ∧
      ∃ info, (list_references st').lookup (refIdOf title) = some info ∧
        info.author = none := by
  simp only [add_reference_novel]
  rw [if_neg (by simp [hfresh])]
  refine ⟨_, _, rfl, ?_, ?_⟩
  · intro e he
    rw [List.drop_left] at he
    exact mkEntries_author _ _ _ _ e he
  · exact ⟨_, lookup_append_of_none _ _ _ hfresh, rfl⟩

/-- Claim C9 counterexample: adding a 60-character text without an author
leaves `author = None` in the catalog entry returned by `list_references`
(not `"Unknown"` as claimed), while the chunk metadata does say
`"Unknown"`. -/
theorem claim_C9_counterexample :
    ((add_reference_novel (fun t => t) emptyState "t" (List.replicate 60 'a') none 500 200).map
        (fun p => (list_references p.1).map (fun q => q.2.author))) = .ok [none] ∧
    ((add_reference_novel (fun t => t) emptyState "t" (List.replicate 60 'a') none 500 200).map
        (fun p => p.1.collection.map (fun e => e.meta.author))) = .ok ["Unknown"] ∧
    (none : Option String) ≠ some "Unknown" := by
  exact ⟨by decide, by decide, by decide⟩

/-- Concrete instance of `claim_C9_amended`. -/
theorem claim_C9_witness :
    ∃ st' res,
      add_reference_novel (fun t => t) emptyState "t" (List.replicate 60 'a') none 500 200 =
        .ok (st', res) ∧
      (∀ e ∈ st'.collection.drop emptyState.collection.length, e.meta.author = "Unknown") ∧
      ∃ info, (list_references st').lookup "t" = some info ∧ info.author = none :=
  claim_C9_amended (fun t => t) emptyState "t" (List.replicate 60 'a') 500 200 rfl

/-! ## Claim C3: add/remove symmetry -/

/-- Claim C3: after a successful `add_reference_novel` followed by
`remove_reference` with the derived id, the removal reports success, the
catalog no longer contains the id, and the similarity index contains none
of the reference's chunk ids `{ref_id}_chunk_{i}`.  The hypothesis on the
starting collection says it holds no stale records under those chunk ids
(true in every state the engine itself builds, by the catalog/index
consistency). -/
theorem claim_C3 (refIdOf : String → String) (st : RagState) (title : String)
    (content : List Char) (author : Option String) (chunk_size max_chunks : Nat)
    (hid : ∀ e ∈ st.collection, ∀ i : Nat, e.id ≠ chunkId (refIdOf title) i)
    (st' : RagState) (res : AddResult)
    (hadd : add_reference_novel refIdOf st title content author chunk_size max_chunks =
      .ok (st', res)) :
    (remove_reference st' (refIdOf title)).2 = true ∧
    (remove_reference st' (refIdOf title)).1.references.lookup (refIdOf title) = none ∧
    (∀ e ∈ (remove_reference st' (refIdOf title)).1.collection,
      ∀ i : Nat, e.id ≠ chunkId (refIdOf title) i) := by
  by_cases hdup : (st.references.lookup (refIdOf title)).isSome
  · rw [add_reference_novel, if_pos hdup] at hadd
    exact absurd hadd (by simp)
  · have hnone : st.references.lookup (refIdOf title) = none :=
      Option.not_isSome_iff_eq_none.mp hdup
    simp only [add_reference_novel, if_neg hdup] at hadd
    obtain ⟨hst, _⟩ := Prod.mk.injEq .. |>.mp (Except.ok.inj hadd)
    subst hst
    have hlook : (st.references ++
        [(refIdOf title,
          ({ title := title, author := author,
             chunk_count := (if (chunk_text content chunk_size).length > max_chunks then
               (chunk_text content chunk_size).take max_chunks
               else chunk_text content chunk_size).length,
             total_chars := ((if (chunk_text content chunk_size).length > max_chunks then
               (chunk_text content chunk_size).take max_chunks
               else chunk_text content chunk_size).map (fun c => c.char_count)).sum } :
            RefInfo))]).lookup (refIdOf title) ≠ none := by
      rw [lookup_append_of_none _ _ _ hnone]
      simp
    constructor
    · rw [remove_reference, if_neg (by simp [hlook])]
    constructor
    · rw [remove_reference, if_neg (by simp [hlook])]
      exact lookup_filter_ne_self _ _
    · rw [remove_reference, if_neg (by simp [hlook])]
      intro e he i
      simp only [List.filter_append, List.mem_append] at he
      rcases he with he | he
      · exact hid e (List.mem_filter.mp he).1 i
      · rw [mkEntries_filter_self] at he
        exact absurd he (List.not_mem_nil e)

/-- Concrete instance of `claim_C3`. -/
theorem claim_C3_witness :
    (remove_reference
        ⟨[("t", ⟨"t", none, 1, 60⟩)],
         [⟨"t_chunk_0", List.replicate 60 'a', ⟨"t", "t", "Unknown", 0, "mixed", 60⟩⟩]⟩
        "t").2 = true ∧
    (remove_reference
        ⟨[("t", ⟨"t", none, 1, 60⟩)],
         [⟨"t_chunk_0", List.replicate 60 'a', ⟨"t", "t", "Unknown", 0, "mixed", 60⟩⟩]⟩
        "t").1.references.lookup "t" = none :=
  (fun h => ⟨h.1, h.2.1⟩)
    (claim_C3 (fun t => t) emptyState "t" (List.replicate 60 'a') none 500 200
      (fun e he => absurd he (List.not_mem_nil e))
      ⟨[("t", ⟨"t", none, 1, 60⟩)],
       [⟨"t_chunk_0", List.replicate 60 'a', ⟨"t", "t", "Unknown", 0, "mixed", 60⟩⟩]⟩
      ⟨"t", "t", 1, 60⟩ (by decide))

/-! ## Claim C8: catalog counters match the stored chunks -/

/-- The records of the similarity index belonging to one reference. -/
def entriesFor (st : RagState) (rid : String) : List IndexEntry :=
  st.collection.filter (fun e => e.meta.ref_id == rid)

/-- Catalog/index consistency: every index record belongs to a cataloged
reference, and every catalog entry's `chunk_count`/`total_chars` equal the
count and the char-count sum of that reference's records in the index. -/
def CatalogConsistent (st : RagState) : Prop :=
  (∀ e ∈ st.collection, (st.references.lookup e.meta.ref_id).isSome) ∧
  (∀ rid info, st.references.lookup rid = some info →
    info.chunk_count = (entriesFor st rid).length ∧
    info.total_chars = ((entriesFor st rid).map (fun e => e.meta.char_count)).sum)

theorem filter_eq_nil_of_orphan_free {st : RagState} {rid : String}
    (horph : ∀ e ∈ st.collection, (st.references.lookup e.meta.ref_id).isSome)
    (hfresh : st.references.lookup rid = none) :
    entriesFor st rid = [] := by
  rw [entriesFor, List.filter_eq_nil_iff]
  intro e he
  intro hb
  have heq : e.meta.ref_id = rid := by simpa using hb
  have h2 := horph e he
  rw [heq, hfresh] at h2
  exact absurd h2 (by simp)

theorem consistent_extend (st : RagState) (rid title : String)
    (author : Option String) (chunks : List Chunk)
    (hcons : CatalogConsistent st)
    (hfresh : st.references.lookup rid = none) :
    CatalogConsistent
      ⟨st.references ++
         [(rid, ⟨title, author, chunks.length, (chunks.map (fun c => c.char_count)).sum⟩)],
       st.collection ++ mkEntries rid title author chunks⟩ := by
  constructor
  · intro e he
    rcases List.mem_append.mp he with he | he
    · by_cases hr : e.meta.ref_id = rid
      · rw [hr]
        show ((st.references ++ [(rid, _)]).lookup rid).isSome = true
        rw [lookup_append_of_none _ _ _ hfresh]
        rfl
      · show ((st.references ++ [(rid, _)]).lookup e.meta.ref_id).isSome = true
        rw [lookup_append_of_ne hr]
        exact hcons.1 e he
    · have hr := mkEntries_ref_id rid title author chunks e he
      rw [hr]
      show ((st.references ++ [(rid, _)]).lookup rid).isSome = true
      rw [lookup_append_of_none _ _ _ hfresh]
      rfl
  · intro rid' info' hl
    by_cases hr : rid' = rid
    · subst hr
      rw [show (⟨st.references ++ [(rid', _)], _⟩ : RagState).references =
        st.references ++ [(rid',
          ⟨title, author, chunks.length, (chunks.map (fun c => c.char_count)).sum⟩)] from rfl,
        lookup_append_of_none _ _ _ hfresh] at hl
      obtain rfl := Option.some.inj hl
      have hfil : entriesFor
          ⟨st.references ++
             [(rid', ⟨title, author, chunks.length, (chunks.map (fun c => c.char_count)).sum⟩)],
           st.collection ++ mkEntries rid' title author chunks⟩ rid' =
          mkEntries rid' title author chunks := by
        show (st.collection ++ mkEntries rid' title author chunks).filter
          (fun e => e.meta.ref_id == rid') = _
        rw [List.filter_append,
          show st.collection.filter (fun e => e.meta.ref_id == rid') =
            entriesFor st rid' from rfl,
          filter_eq_nil_of_orphan_free hcons.1 hfresh,
          mkEntries_filter_eq_self, List.nil_append]
      rw [hfil, mkEntries_length, mkEntries_char_counts]
      exact ⟨rfl, rfl⟩
    · rw [show (⟨st.references ++ [(rid, _)], _⟩ : RagState).references =
        st.references ++ [(rid,
          ⟨title, author, chunks.length, (chunks.map (fun c => c.char_count)).sum⟩)] from rfl,
        lookup_append_of_ne hr] at hl
      have hold := hcons.2 rid' info' hl
      have hfil : entriesFor
          ⟨st.references ++
             [(rid, ⟨title, author, chunks.length, (chunks.map (fun c => c.char_count)).sum⟩)],
           st.collection ++ mkEntries rid title author chunks⟩ rid' =
          entriesFor st rid' := by
        show (st.collection ++ mkEntries rid title author chunks).filter
          (fun e => e.meta.ref_id == rid') = st.collection.filter (fun e => e.meta.ref_id == rid')
        rw [List.filter_append, mkEntries_filter_other rid title author chunks hr,
          List.append_nil]
      rw [hfil]
      exact hold

theorem add_preserves_consistent (refIdOf : String → String) (st : RagState) (title : String)
    (content : List Char) (author : Option String) (chunk_size max_chunks : Nat)
    (st' : RagState) (res : AddResult)
    (hcons : CatalogConsistent st)
    (hadd : add_reference_novel refIdOf st title content author chunk_size max_chunks =
      .ok (st', res)) :
    CatalogConsistent st' := by
  by_cases hdup : (st.references.lookup (refIdOf title)).isSome
  · rw [add_reference_novel, if_pos hdup] at hadd
    exact absurd hadd (by simp)
  · have hnone := Option.not_isSome_iff_eq_none.mp hdup
    simp only [add_reference_novel, if_neg hdup] at hadd
    obtain ⟨hst, _⟩ := Prod.mk.injEq .. |>.mp (Except.ok.inj hadd)
    subst hst
    exact consistent_extend st (refIdOf title) title author _ hcons hnone

theorem remove_preserves_consistent (st : RagState) (rid : String)
    (hcons : CatalogConsistent st) :
    CatalogConsistent (remove_reference st rid).1 := by
  by_cases h : (st.references.lookup rid).isNone
  · rw [remove_reference, if_pos h]
    exact hcons
  · rw [remove_reference, if_neg h]
    constructor
    · intro e he
      have hmem := (List.mem_filter.mp he).1
      have hne : e.meta.ref_id ≠ rid := by simpa using (List.mem_filter.mp he).2
      show ((st.references.filter (fun p => p.1 != rid)).lookup e.meta.ref_id).isSome = true
      rw [lookup_filter_ne hne]
      exact hcons.1 e hmem
    · intro rid' info' hl
      rw [show (⟨st.references.filter (fun p => p.1 != rid),
            st.collection.filter (fun e => e.meta.ref_id != rid)⟩ : RagState).references =
          st.references.filter (fun p => p.1 != rid) from rfl] at hl
      have hne : rid' ≠ rid := by
        intro hr
        subst hr
        rw [lookup_filter_ne_self] at hl
        exact absurd hl (by simp)
      rw [lookup_filter_ne hne] at hl
      have hold := hcons.2 rid' info' hl
      have hfil : entriesFor
          ⟨st.references.filter (fun p => p.1 != rid),
           st.collection.filter (fun e => e.meta.ref_id != rid)⟩ rid' =
          entriesFor st rid' := by
        show (st.collection.filter (fun e => e.meta.ref_id != rid)).filter
            (fun e => e.meta.ref_id == rid') =
          st.collection.filter (fun e => e.meta.ref_id == rid')
        rw [List.filter_filter]
        apply List.filter_congr
        intro e _
        by_cases he : e.meta.ref_id = rid'
        · simp [he, hne]
        · simp [he]
      rw [hfil]
      exact hold

theorem consistent_empty : CatalogConsistent emptyState := by
  constructor
  · intro e he
    exact absurd he (List.not_mem_nil e)
  · intro rid info hl
    simp [List.lookup] at hl

/-- Claim C8: the catalog entry written by every successful add carries
`chunk_count` equal to the number of that reference's chunks in the
similarity index and `total_chars` equal to the sum of their recorded
char counts, and this consistency is preserved by every subsequent
operation (further adds, removes, and full clears), starting from the
empty state. -/
theorem claim_C8 :
    CatalogConsistent emptyState ∧
    (∀ (refIdOf : String → String) (st : RagState) (title : String) (content : List Char)
        (author : Option String) (chunk_size max_chunks : Nat) (st' : RagState)
        (res : AddResult),
      CatalogConsistent st →
      add_reference_novel refIdOf st title content author chunk_size max_chunks =
        .ok (st', res) →
      CatalogConsistent st') ∧
    (∀ (st : RagState) (rid : String), CatalogConsistent st →
      CatalogConsistent (remove_reference st rid).1) ∧
    (∀ st : RagState, CatalogConsistent (clear_all_references st)) :=
  ⟨consistent_empty,
   fun refIdOf st title content author cs mc st' res hc ha =>
     add_preserves_consistent refIdOf st title content author cs mc st' res hc ha,
   fun st rid hc => remove_preserves_consistent st rid hc,
   fun _ => consistent_empty⟩

/-- Concrete instance of `claim_C8`: the state after one concrete add is
consistent. -/
theorem claim_C8_witness :
    CatalogConsistent
      ⟨[("t", ⟨"t", none, 1, 60⟩)],
       [⟨"t_chunk_0", List.replicate 60 'a', ⟨"t", "t", "Unknown", 0, "mixed", 60⟩⟩]⟩ :=
  claim_C8.2.1 (fun t => t) emptyState "t" (List.replicate 60 'a') none 500 200
    ⟨[("t", ⟨"t", none, 1, 60⟩)],
     [⟨"t_chunk_0", List.replicate 60 'a', ⟨"t", "t", "Unknown", 0, "mixed", 60⟩⟩]⟩
    ⟨"t", "t", 1, 60⟩ claim_C8.1 (by decide)

/-! ## Claim C7: folder scans -/

theorem scanGo_true_spec (refIdOf : String → String) (author : Option String) (cs mc : Nat) :
    ∀ (files : List FileRec) (st : RagState) (r : ScanResults),
    ∃ st' r', scanGo refIdOf author cs mc true files st r = .ok (st', r') ∧
      (∀ f, f ∈ r'.success → f ∈ r.success ∨ f ∈ files) ∧
      (∀ f, f ∈ r'.failed → f ∈ r.failed ∨ f ∈ files) ∧
      (∀ f, f ∈ r'.skipped → f ∈ r.skipped ∨ f ∈ files) ∧
      (∀ f, f ∈ r.success → f ∈ r'.success) ∧
      (∀ f, f ∈ r.failed → f ∈ r'.failed) ∧
      (∀ f, f ∈ r.skipped → f ∈ r'.skipped) ∧
      (∀ f ∈ files, f ∈ r'.success ∨ f ∈ r'.failed ∨ f ∈ r'.skipped) := by
  intro files
  induction files with
  | nil =>
    intro st r
    refine ⟨st, r, rfl, ?_, ?_, ?_, ?_, ?_, ?_, ?_⟩
    · exact fun f hf => Or.inl hf
    · exact fun f hf => Or.inl hf
    · exact fun f hf => Or.inl hf
    · exact fun f hf => hf
    · exact fun f hf => hf
    · exact fun f hf => hf
    · intro f hf
      exact absurd hf (List.not_mem_nil f)
  | cons f rest ih =>
    intro st r
    by_cases hdup : (st.references.lookup (refIdOf f.stem)).isSome
    · obtain ⟨st', r', heq, m1, m2, m3, u1, u2, u3, hall⟩ :=
        ih st { r with skipped := r.skipped ++ [f] }
      refine ⟨st', r', by rw [scanGo, if_pos hdup]; exact heq, ?_, ?_, ?_, ?_, ?_, ?_, ?_⟩
      · intro g hg
        rcases m1 g hg with hg | hg
        · exact Or.inl hg
        · exact Or.inr (List.mem_cons_of_mem f hg)
      · intro g hg
        rcases m2 g hg with hg | hg
        · exact Or.inl hg
        · exact Or.inr (List.mem_cons_of_mem f hg)
      · intro g hg
        rcases m3 g hg with hg | hg
        · rcases mem_append_singleton hg with hg | rfl
          · exact Or.inl hg
          · exact Or.inr (List.mem_cons_self _ _)
        · exact Or.inr (List.mem_cons_of_mem f hg)
      · exact u1
      · exact u2
      · exact fun g hg => u3 g (List.mem_append_left _ hg)
      · intro g hg
        rcases List.mem_cons.mp hg with rfl | hg
        · exact Or.inr (Or.inr (u3 g (List.mem_append_right _ (List.mem_singleton_self g))))
        · exact hall g hg
    · rcases hadd : add_reference_from_file refIdOf st f none author cs mc with e | p
      · obtain ⟨st', r', heq, m1, m2, m3, u1, u2, u3, hall⟩ :=
          ih st { r with failed := r.failed ++ [f] }
        refine ⟨st', r',
          by rw [scanGo, if_neg hdup, hadd]; exact heq,
          ?_, ?_, ?_, ?_, ?_, ?_, ?_⟩
        · intro g hg
          rcases m1 g hg with hg | hg
          · exact Or.inl hg
          · exact Or.inr (List.mem_cons_of_mem f hg)
        · intro g hg
          rcases m2 g hg with hg | hg
          · rcases mem_append_singleton hg with hg | rfl
            · exact Or.inl hg
            · exact Or.inr (List.mem_cons_self _ _)
          · exact Or.inr (List.mem_cons_of_mem f hg)
        · intro g hg
          rcases m3 g hg with hg | hg
          · exact Or.inl hg
          · exact Or.inr (List.mem_cons_of_mem f hg)
        · exact u1
        · exact fun g hg => u2 g (List.mem_append_left _ hg)
        · exact u3
        · intro g hg
          rcases List.mem_cons.mp hg with rfl | hg
          · exact Or.inr (Or.inl (u2 g (List.mem_append_right _ (List.mem_singleton_self g))))
          · exact hall g hg
      · rcases p with ⟨st2, res⟩
        obtain ⟨st', r', heq, m1, m2, m3, u1, u2, u3, hall⟩ :=
          ih st2 { r with success := r.success ++ [f] }
        refine ⟨st', r', by rw [scanGo, if_neg hdup, hadd]; exact heq,
          ?_, ?_, ?_, ?_, ?_, ?_, ?_⟩
        · intro g hg
          rcases m1 g hg with hg | hg
          · rcases mem_append_singleton hg with hg | rfl
            · exact Or.inl hg
            · exact Or.inr (List.mem_cons_self _ _)
          · exact Or.inr (List.mem_cons_of_mem f hg)
        · intro g hg
          rcases m2 g hg with hg | hg
          · exact Or.inl hg
          · exact Or.inr (List.mem_cons_of_mem f hg)
        · intro g hg
          rcases m3 g hg with hg | hg
          · exact Or.inl hg
          · exact Or.inr (List.mem_cons_of_mem f hg)
        · exact fun g hg => u1 g (List.mem_append_left _ hg)
        · exact u2
        · exact u3
        · intro g hg
          rcases List.mem_cons.mp hg with rfl | hg
          · exact Or.inl (u1 g (List.mem_append_right _ (List.mem_singleton_self g)))
          · exact hall g hg

theorem scanGo_true_failed_len (refIdOf : String → String) (author : Option String)
    (cs mc : Nat) : ∀ (files : List FileRec) (st : RagState) (r : ScanResults)
    (st' : RagState) (r' : ScanResults),
    scanGo refIdOf author cs mc true files st r = .ok (st', r') →
    r.failed.length ≤ r'.failed.length := by
  intro files
  induction files with
  | nil =>
    intro st r st' r' h
    obtain ⟨_, h2⟩ := Prod.mk.injEq .. |>.mp (Except.ok.inj h)
    rw [← h2]
  | cons f rest ih =>
    intro st r st' r' h
    by_cases hdup : (st.references.lookup (refIdOf f.stem)).isSome
    · rw [scanGo, if_pos hdup] at h
      exact ih st { r with skipped := r.skipped ++ [f] } st' r' h
    · rcases hadd : add_reference_from_file refIdOf st f none author cs mc with e | ⟨st2, res⟩
      · rw [scanGo, if_neg hdup, hadd] at h
        have := ih st { r with failed := r.failed ++ [f] } st' r' h
        simp only [List.length_append, List.length_singleton] at this
        omega
      · rw [scanGo, if_neg hdup, hadd] at h
        exact ih st2 { r with success := r.success ++ [f] } st' r' h

theorem scanGo_false_spec (refIdOf : String → String) (author : Option String)
    (cs mc : Nat) : ∀ (files : List FileRec) (st : RagState) (r : ScanResults)
    (st' : RagState) (r' : ScanResults),
    scanGo refIdOf author cs mc true files st r = .ok (st', r') →
    (r'.failed = r.failed → scanGo refIdOf author cs mc false files st r = .ok (st', r')) ∧
    (r'.failed ≠ r.failed → ∃ e, scanGo refIdOf author cs mc false files st r = .error e) := by
  intro files
  induction files with
  | nil =>
    intro st r st' r' h
    obtain ⟨h1, h2⟩ := Prod.mk.injEq .. |>.mp (Except.ok.inj h)
    subst h1
    subst h2
    exact ⟨fun _ => rfl, fun hne => absurd rfl hne⟩
  | cons f rest ih =>
    intro st r st' r' h
    by_cases hdup : (st.references.lookup (refIdOf f.stem)).isSome
    · rw [scanGo, if_pos hdup] at h
      obtain ⟨h1, h2⟩ := ih st { r with skipped := r.skipped ++ [f] } st' r' h
      exact ⟨fun he => by rw [scanGo, if_pos hdup]; exact h1 he,
             fun he => by rw [scanGo, if_pos hdup]; exact h2 he⟩
    · rcases hadd : add_reference_from_file refIdOf st f none author cs mc with e | ⟨st2, res⟩
      · rw [scanGo, if_neg hdup, hadd] at h
        have hlen := scanGo_true_failed_len refIdOf author cs mc rest st
          { r with failed := r.failed ++ [f] } st' r' h
        simp only [List.length_append, List.length_singleton] at hlen
        have hne : r'.failed ≠ r.failed := by
          intro he
          rw [he] at hlen
          omega
        refine ⟨fun he => absurd he hne, fun _ => ⟨e, ?_⟩⟩
        rw [scanGo, if_neg hdup, hadd]
        rfl
      · rw [scanGo, if_neg hdup, hadd] at h
        obtain ⟨h1, h2⟩ := ih st2 { r with success := r.success ++ [f] } st' r' h
        exact ⟨fun he => by rw [scanGo, if_neg hdup, hadd]; exact h1 he,
               fun he => by rw [scanGo, if_neg hdup, hadd]; exact h2 he⟩

theorem scanGo_result_mem (refIdOf : String → String) (author : Option String)
    (cs mc : Nat) (skip_errors : Bool) : ∀ (files : List FileRec) (st : RagState)
    (r : ScanResults) (st' : RagState) (r' : ScanResults),
    scanGo refIdOf author cs mc skip_errors files st r = .ok (st', r') →
    (∀ g, g ∈ r'.success → g ∈ r.success ∨ g ∈ files) ∧
    (∀ g, g ∈ r'.failed → g ∈ r.failed ∨ g ∈ files) ∧
    (∀ g, g ∈ r'.skipped → g ∈ r.skipped ∨ g ∈ files) := by
  intro files
  induction files with
  | nil =>
    intro st r st' r' h
    obtain ⟨_, h2⟩ := Prod.mk.injEq .. |>.mp (Except.ok.inj h)
    subst h2
    exact ⟨fun g hg => Or.inl hg, fun g hg => Or.inl hg, fun g hg => Or.inl hg⟩
  | cons f rest ih =>
    intro st r st' r' h
    by_cases hdup : (st.references.lookup (refIdOf f.stem)).isSome
    · rw [scanGo, if_pos hdup] at h
      obtain ⟨m1, m2, m3⟩ := ih st { r with skipped := r.skipped ++ [f] } st' r' h
      refine ⟨?_, ?_, ?_⟩
      · intro g hg
        rcases m1 g hg with hg | hg
        · exact Or.inl hg
        · exact Or.inr (List.mem_cons_of_mem f hg)
      · intro g hg
        rcases m2 g hg with hg | hg
        · exact Or.inl hg
        · exact Or.inr (List.mem_cons_of_mem f hg)
      · intro g hg
        rcases m3 g hg with hg | hg
        · rcases mem_append_singleton hg with hg | rfl
          · exact Or.inl hg
          · exact Or.inr (List.mem_cons_self _ _)
        · exact Or.inr (List.mem_cons_of_mem f hg)
    · rcases hadd : add_reference_from_file refIdOf st f none author cs mc with e | ⟨st2, res⟩
      · rw [scanGo, if_neg hdup, hadd] at h
        cases skip_errors with
        | false => exact absurd h (by simp)
        | true =>
          obtain ⟨m1, m2, m3⟩ := ih st { r with failed := r.failed ++ [f] } st' r' h
          refine ⟨?_, ?_, ?_⟩
          · intro g hg
            rcases m1 g hg with hg | hg
            · exact Or.inl hg
            · exact Or.inr (List.mem_cons_of_mem f hg)
          · intro g hg
            rcases m2 g hg with hg | hg
            · rcases mem_append_singleton hg with hg | rfl
              · exact Or.inl hg
              · exact Or.inr (List.mem_cons_self _ _)
            · exact Or.inr (List.mem_cons_of_mem f hg)
          · intro g hg
            rcases m3 g hg with hg | hg
            · exact Or.inl hg
            · exact Or.inr (List.mem_cons_of_mem f hg)
      · rw [scanGo, if_neg hdup, hadd] at h
        obtain ⟨m1, m2, m3⟩ := ih st2 { r with success := r.success ++ [f] } st' r' h
        refine ⟨?_, ?_, ?_⟩
        · intro g hg
          rcases m1 g hg with hg | hg
          · rcases mem_append_singleton hg with hg | rfl
            · exact Or.inl hg
            · exact Or.inr (List.mem_cons_self _ _)
          · exact Or.inr (List.mem_cons_of_mem f hg)
        · intro g hg
          rcases m2 g hg with hg | hg
          · exact Or.inl hg
          · exact Or.inr (List.mem_cons_of_mem f hg)
        · intro g hg
          rcases m3 g hg with hg | hg
          · exact Or.inl hg
          · exact Or.inr (List.mem_cons_of_mem f hg)

theorem glob_ext_mem {folder : List FileRec} {f : FileRec} (h : f ∈ globFiles folder) :
    f.ext ∈ ([".txt", ".pdf", ".epub", ".TXT", ".PDF", ".EPUB"] : List String) := by
  unfold globFiles at h
  rw [List.mem_flatten] at h
  rcases h with ⟨blk, hblk, hf⟩
  rw [List.mem_map] at hblk
  rcases hblk with ⟨ext, hext, rfl⟩
  rcases List.mem_append.mp hf with hf | hf
  · have heq : f.ext = ext := by simpa using (List.mem_filter.mp hf).2
    rw [heq]
    fin_cases hext <;> decide
  · have heq : f.ext = upperStr ext := by simpa using (List.mem_filter.mp hf).2
    rw [heq]
    fin_cases hext <;> decide

/-- Claim C7: (a) a file whose extension is not one of the supported
glob patterns is filtered out before processing and appears in none of the
result's success/failed/skipped lists; (b) with `skip_errors` on, the scan
always returns a result and every candidate file lands in exactly one of
the three lists (per-file failures are recorded and processing continues);
(c) with `skip_errors` off the scan returns the same result when nothing
failed and raises at the first failure; (d) a folder with three importable
files and one unsupported-extension file reports `success_count = 3` with
nothing failed or skipped. -/
theorem claim_C7 :
    (∀ (refIdOf : String → String) (st : RagState) (folder : List FileRec)
        (author : Option String) (cs mc : Nat) (skip_errors : Bool)
        (st' : RagState) (r : ScanResults),
      scan_folder refIdOf st folder author cs mc skip_errors = .ok (st', r) →
      ∀ f ∈ folder,
        f.ext ∉ ([".txt", ".pdf", ".epub", ".TXT", ".PDF", ".EPUB"] : List String) →
        f ∉ r.success ∧ f ∉ r.failed ∧ f ∉ r.skipped) ∧
    (∀ (refIdOf : String → String) (st : RagState) (folder : List FileRec)
        (author : Option String) (cs mc : Nat),
      ∃ st' r, scan_folder refIdOf st folder author cs mc true = .ok (st', r) ∧
        ∀ f ∈ globFiles folder, f ∈ r.success ∨ f ∈ r.failed ∨ f ∈ r.skipped) ∧
    (∀ (refIdOf : String → String) (st : RagState) (folder : List FileRec)
        (author : Option String) (cs mc : Nat) (st' : RagState) (r : ScanResults),
      scan_folder refIdOf st folder author cs mc true = .ok (st', r) →
      (r.failed = [] → scan_folder refIdOf st folder author cs mc false = .ok (st', r)) ∧
      (r.failed ≠ [] → ∃ e, scan_folder refIdOf st folder author cs mc false = .error e)) ∧
    (∀ refIdOf : String → String,
      refIdOf "fa" ≠ refIdOf "fb" → refIdOf "fa" ≠ refIdOf "fc" →
      refIdOf "fb" ≠ refIdOf "fc" →
      ∃ st' r, scan_folder refIdOf emptyState
          [⟨"fa", ".txt", .ok "x".toList⟩, ⟨"fb", ".txt", .ok "x".toList⟩,
           ⟨"fc", ".txt", .ok "x".toList⟩, ⟨"fd", ".doc", .ok "x".toList⟩]
          none 500 200 true = .ok (st', r) ∧
        r.success.length = 3 ∧ r.failed = [] ∧ r.skipped = []) := by
  refine ⟨?_, ?_, ?_, ?_⟩
  · intro refIdOf st folder author cs mc skip_errors st' r hscan f hf hext
    simp only [scan_folder] at hscan
    obtain ⟨m1, m2, m3⟩ := scanGo_result_mem refIdOf author cs mc skip_errors
      (globFiles folder) st
      { total_files := (globFiles folder).length, success := [], failed := [], skipped := [] }
      st' r hscan
    refine ⟨fun hmem => ?_, fun hmem => ?_, fun hmem => ?_⟩
    · rcases m1 f hmem with h | h
      · exact absurd h (List.not_mem_nil f)
      · exact hext (glob_ext_mem h)
    · rcases m2 f hmem with h | h
      · exact absurd h (List.not_mem_nil f)
      · exact hext (glob_ext_mem h)
    · rcases m3 f hmem with h | h
      · exact absurd h (List.not_mem_nil f)
      · exact hext (glob_ext_mem h)
  · intro refIdOf st folder author cs mc
    obtain ⟨st', r', heq, _, _, _, _, _, _, hall⟩ :=
      scanGo_true_spec refIdOf author cs mc (globFiles folder) st
        { total_files := (globFiles folder).length, success := [], failed := [], skipped := [] }
    refine ⟨st', r', ?_, hall⟩
    simp only [scan_folder]
    exact heq
  · intro refIdOf st folder author cs mc st' r hscan
    simp only [scan_folder] at hscan ⊢
    exact scanGo_false_spec refIdOf author cs mc (globFiles folder) st
      { total_files := (globFiles folder).length, success := [], failed := [], skipped := [] }
      st' r hscan
  · intro refIdOf h1 h2 h3
    have b21 : ((refIdOf "fb") == (refIdOf "fa")) = false := beq_eq_false_iff_ne.mpr (Ne.symm h1)
    have b31 : ((refIdOf "fc") == (refIdOf "fa")) = false := beq_eq_false_iff_ne.mpr (Ne.symm h2)
    have b32 : ((refIdOf "fc") == (refIdOf "fb")) = false := beq_eq_false_iff_ne.mpr (Ne.symm h3)
    refine ⟨⟨[(refIdOf "fa", ⟨"fa", none, 0, 0⟩), (refIdOf "fb", ⟨"fb", none, 0, 0⟩),
              (refIdOf "fc", ⟨"fc", none, 0, 0⟩)], []⟩,
            ⟨3, [⟨"fa", ".txt", .ok "x".toList⟩, ⟨"fb", ".txt", .ok "x".toList⟩,
                 ⟨"fc", ".txt", .ok "x".toList⟩], [], []⟩, ?_, rfl, rfl, rfl⟩
    have e2 : add_reference_from_file refIdOf
        ⟨[(refIdOf "fa", ⟨"fa", none, 0, 0⟩)], []⟩ ⟨"fb", ".txt", .ok "x".toList⟩
        none none 500 200 =
        .ok (⟨[(refIdOf "fa", ⟨"fa", none, 0, 0⟩), (refIdOf "fb", ⟨"fb", none, 0, 0⟩)], []⟩,
             ⟨refIdOf "fb", "fb", 0, 0⟩) := by
      show add_reference_novel refIdOf ⟨[(refIdOf "fa", ⟨"fa", none, 0, 0⟩)], []⟩ "fb"
        ("x".toList) none 500 200 = _
      simp only [add_reference_novel]
      rw [if_neg (by simp [List.lookup, b21])]
      rfl
    have e3 : add_reference_from_file refIdOf
        ⟨[(refIdOf "fa", ⟨"fa", none, 0, 0⟩), (refIdOf "fb", ⟨"fb", none, 0, 0⟩)], []⟩
        ⟨"fc", ".txt", .ok "x".toList⟩ none none 500 200 =
        .ok (⟨[(refIdOf "fa", ⟨"fa", none, 0, 0⟩), (refIdOf "fb", ⟨"fb", none, 0, 0⟩),
               (refIdOf "fc", ⟨"fc", none, 0, 0⟩)], []⟩,
             ⟨refIdOf "fc", "fc", 0, 0⟩) := by
      show add_reference_novel refIdOf
        ⟨[(refIdOf "fa", ⟨"fa", none, 0, 0⟩), (refIdOf "fb", ⟨"fb", none, 0, 0⟩)], []⟩ "fc"
        ("x".toList) none 500 200 = _
      simp only [add_reference_novel]
      rw [if_neg (by simp [List.lookup, b31, b32])]
      rfl
    have s3 : scanGo refIdOf none 500 200 true [⟨"fc", ".txt", .ok "x".toList⟩]
        ⟨[(refIdOf "fa", ⟨"fa", none, 0, 0⟩), (refIdOf "fb", ⟨"fb", none, 0, 0⟩)], []⟩
        ⟨3, [⟨"fa", ".txt", .ok "x".toList⟩, ⟨"fb", ".txt", .ok "x".toList⟩], [], []⟩ =
        .ok (⟨[(refIdOf "fa", ⟨"fa", none, 0, 0⟩), (refIdOf "fb", ⟨"fb", none, 0, 0⟩),
               (refIdOf "fc", ⟨"fc", none, 0, 0⟩)], []⟩,
             ⟨3, [⟨"fa", ".txt", .ok "x".toList⟩, ⟨"fb", ".txt", .ok "x".toList⟩,
                  ⟨"fc", ".txt", .ok "x".toList⟩], [], []⟩) := by
      rw [scanGo, if_neg (by simp [List.lookup, b31, b32]), e3]
      rfl
    have s2 : scanGo refIdOf none 500 200 true
        [⟨"fb", ".txt", .ok "x".toList⟩, ⟨"fc", ".txt", .ok "x".toList⟩]
        ⟨[(refIdOf "fa", ⟨"fa", none, 0, 0⟩)], []⟩
        ⟨3, [⟨"fa", ".txt", .ok "x".toList⟩], [], []⟩ =
        .ok (⟨[(refIdOf "fa", ⟨"fa", none, 0, 0⟩), (refIdOf "fb", ⟨"fb", none, 0, 0⟩),
               (refIdOf "fc", ⟨"fc", none, 0, 0⟩)], []⟩,
             ⟨3, [⟨"fa", ".txt", .ok "x".toList⟩, ⟨"fb", ".txt", .ok "x".toList⟩,
                  ⟨"fc", ".txt", .ok "x".toList⟩], [], []⟩) := by
      rw [scanGo, if_neg (by simp [List.lookup, b21]), e2]
      exact s3
    have s1 : scanGo refIdOf none 500 200 true
        [⟨"fa", ".txt", .ok "x".toList⟩, ⟨"fb", ".txt", .ok "x".toList⟩,
         ⟨"fc", ".txt", .ok "x".toList⟩]
        emptyState ⟨3, [], [], []⟩ =
        .ok (⟨[(refIdOf "fa", ⟨"fa", none, 0, 0⟩), (refIdOf "fb", ⟨"fb", none, 0, 0⟩),
               (refIdOf "fc", ⟨"fc", none, 0, 0⟩)], []⟩,
             ⟨3, [⟨"fa", ".txt", .ok "x".toList⟩, ⟨"fb", ".txt", .ok "x".toList⟩,
                  ⟨"fc", ".txt", .ok "x".toList⟩], [], []⟩) := by
      rw [scanGo, if_neg (by simp [List.lookup])]
      rw [show add_reference_from_file refIdOf emptyState ⟨"fa", ".txt", .ok "x".toList⟩
          none none 500 200 =
          .ok (⟨[(refIdOf "fa", ⟨"fa", none, 0, 0⟩)], []⟩, ⟨refIdOf "fa", "fa", 0, 0⟩) from rfl]
      exact s2
    exact s1

/-- Concrete instance of `claim_C7` (the batch-import scenario). -/
theorem claim_C7_witness :
    ∃ st' r, scan_folder (fun t => t) emptyState
        [⟨"fa", ".txt", .ok "x".toList⟩, ⟨"fb", ".txt", .ok "x".toList⟩,
         ⟨"fc", ".txt", .ok "x".toList⟩, ⟨"fd", ".doc", .ok "x".toList⟩]
        none 500 200 true = .ok (st', r) ∧
      r.success.length = 3 ∧ r.failed = [] ∧ r.skipped = [] :=
  claim_C7.2.2.2 (fun t => t) (by decide) (by decide) (by decide)
